import Mathlib

/-! # SeaweedFS filer: chunk deltas, entry updates, listing and the replication sink

A shallow embedding of

* `weed/replication/sink/filersink/filer_sink.go` (`minusChunks`, `compareChunks`,
  `FilerSink.UpdateEntry`), and
* `weed/server/filer_grpc_server.go` (`FilerServer.ListEntries`, `FilerServer.CreateEntry`,
  `FilerServer.UpdateEntry`).

Go slices are lists, Go pointers to protobuf messages are values, and calls that leave the
function (metadata store, volume layer, remote filer) are recorded in an effect trace, with the
outcome of each call supplied by an environment record.
-/

namespace SeaweedFS

/-! ## Data model -/

/-- The protobuf message `filer_pb.FileChunk`: `FileId` is the identity used by the set
operations, `Offset`/`Size` give the byte range and `Mtime` the recency. -/
structure FileChunk where
  FileId : String
  Offset : Int
  Size : Nat
  Mtime : Int
deriving DecidableEq, Repr

/-- A Go `time.Time`, as seconds and nanoseconds since the Unix epoch. -/
structure Time where
  sec : Int
  nsec : Int
deriving DecidableEq, Repr

/-- The call `time.Unix(sec, 0)`. -/
def time_Unix (sec : Int) : Time := ⟨sec, 0⟩

/-- The attributes `filer2.Attr` of a stored entry: the fields that the embedded code reads or
writes (the type is declared outside the embedded files). -/
structure Attr where
  Mtime : Time
  Mode : Nat
  Uid : Nat
  Gid : Nat
  Mime : String
deriving DecidableEq, Repr

/-- The stored entry `filer2.Entry`. -/
structure Entry where
  FullPath : String
  Attr : Attr
  Chunks : List FileChunk
deriving DecidableEq, Repr

/-- The protobuf message `filer_pb.FuseAttributes` (fields used by the code). -/
structure FuseAttributes where
  Mtime : Int
  FileMode : Nat
  Uid : Nat
  Gid : Nat
  Mime : String
deriving DecidableEq, Repr

/-- The protobuf message `filer_pb.Entry`; `Attributes` is a pointer that may be nil. -/
structure PbEntry where
  Name : String
  IsDirectory : Bool
  Chunks : List FileChunk
  Attributes : Option FuseAttributes
deriving DecidableEq, Repr

/-! ## `minusChunks` and `compareChunks` (filer_sink.go) -/

/-- The inner loop of `minusChunks`: scan `bs` for a chunk with the `FileId` of `a`,
stopping at the first hit. -/
def minusChunks.found (a : FileChunk) : List FileChunk → Bool
  | [] => false
  | b :: bs => if a.FileId = b.FileId then true else minusChunks.found a bs

/-- The outer loop of `minusChunks`, with the slice `delta` built so far. -/
def minusChunks.loop (bs : List FileChunk) : List FileChunk → List FileChunk → List FileChunk
  | [], delta => delta
  | a :: as_, delta =>
    if minusChunks.found a bs then minusChunks.loop bs as_ delta
    else minusChunks.loop bs as_ (delta ++ [a])

/-- The function `minusChunks(as, bs)`. -/
def minusChunks (as_ bs : List FileChunk) : List FileChunk :=
  minusChunks.loop bs as_ []

/-- The function `compareChunks(oldEntry, newEntry)`, returning `(deletedChunks, newChunks)`. -/
def compareChunks (oldEntry newEntry : PbEntry) : List FileChunk × List FileChunk :=
  (minusChunks oldEntry.Chunks newEntry.Chunks, minusChunks newEntry.Chunks oldEntry.Chunks)

/-- No two positions of the list hold chunks with the same `FileId`. -/
def DistinctFileIds (cs : List FileChunk) : Prop :=
  cs.Pairwise (fun x y => x.FileId ≠ y.FileId)

instance (cs : List FileChunk) : Decidable (DistinctFileIds cs) := by
  unfold DistinctFileIds; infer_instance

/-- Example chunks, named by their `FileId`. -/
def chunkA : FileChunk := ⟨"A", 0, 10, 1⟩
/-- Example chunk `B`. -/
def chunkB : FileChunk := ⟨"B", 10, 10, 1⟩
/-- Example chunk `C`. -/
def chunkC : FileChunk := ⟨"C", 20, 10, 1⟩
/-- Example chunk `D`. -/
def chunkD : FileChunk := ⟨"D", 30, 10, 1⟩
/-- A second chunk record carrying the `FileId` of `chunkA`. -/
def chunkA2 : FileChunk := ⟨"A", 40, 10, 2⟩

/-! ## Collaborators of the server and of the sink

The code of package `filer2`, of the metadata store and of the remote filer is not part of the
embedded files. Every function of theirs that the embedded code calls is a field of one of the
records below, so that the theorems hold for every implementation of them. -/

/-- Functions of package `filer2` and of the Go library called by the embedded code. -/
structure Package where
  /-- The function `filer2.CompactFileChunks`, returning `(compacted, garbage)`. -/
  CompactFileChunks : List FileChunk → List FileChunk × List FileChunk
  /-- The function `filer2.FindUnusedFileChunks(oldChunks, newChunks)`. -/
  FindUnusedFileChunks : List FileChunk → List FileChunk → List FileChunk
  /-- The function `filer2.EqualEntry`. -/
  EqualEntry : Entry → Entry → Bool
  /-- The function `filer2.ETag`. -/
  ETag : List FileChunk → String
  /-- The function `filer2.PbToEntryAttribute`. -/
  PbToEntryAttribute : Option FuseAttributes → Attr
  /-- The function `filer2.EntryAttributeToPb`. -/
  EntryAttributeToPb : Entry → FuseAttributes
  /-- The method `(*filer2.Entry).IsDirectory`. -/
  IsDirectory : Entry → Bool
  /-- The method `(*filer2.Entry).Name`. -/
  Name : Entry → String
  /-- The function `filepath.Join` on two components. -/
  Join : String → String → String
  /-- The method `filer2.FullPath.DirAndName`. -/
  DirAndName : String → String × String

/-- The outcome of each call on `fs.filer`; an error result `none` is Go's `nil`. -/
structure Filer where
  FindEntry : String → Except String Entry
  ListDirectoryEntries : String → String → Bool → Int → Except String (List Entry)
  CreateEntry : Entry → Option String
  UpdateEntry : Entry → Option String

/-- The receiver `fs *FilerServer`: its filer, `fs.option.DirListingLimit`, and the package
functions it calls. -/
structure FilerServer where
  filer : Filer
  pkg : Package
  DirListingLimit : Int

/-- The calls of the server that leave it, in the order they are made. -/
inductive Effect where
  | FindEntry (fullpath : String)
  | DeleteFileByFileId (fileId : String)
  | CreateEntry (entry : Entry)
  | UpdateEntry (entry : Entry)
  | NotifyUpdateEvent (oldEntry newEntry : Entry) (deleteChunks : Bool)
deriving DecidableEq, Repr

/-- The message `filer_pb.CreateEntryRequest`. -/
structure CreateEntryRequest where
  Directory : String
  Entry : PbEntry
deriving DecidableEq, Repr

/-- The message `filer_pb.UpdateEntryRequest`. -/
structure UpdateEntryRequest where
  Directory : String
  Entry : PbEntry
deriving DecidableEq, Repr

/-- The message `filer_pb.ListEntriesRequest`. -/
structure ListEntriesRequest where
  Directory : String
  Prefix : String
  StartFromFileName : String
  InclusiveStartFrom : Bool
  Limit : Nat
deriving DecidableEq, Repr

/-! ## `FilerServer.CreateEntry` and `FilerServer.UpdateEntry` (filer_grpc_server.go) -/

/-- One `fs.filer.DeleteFileByFileId(garbage.FileId)` per chunk, in slice order: the body of the
`for _, garbage := range ...` loops. -/
def deleteAll (garbages : List FileChunk) : List Effect :=
  garbages.map (fun garbage => Effect.DeleteFileByFileId garbage.FileId)

/-- The entry handed to `fs.filer.CreateEntry` by `FilerServer.CreateEntry`. -/
def FilerServer.CreateEntry.entry (fs : FilerServer) (req : CreateEntryRequest) : Entry :=
  { FullPath := fs.pkg.Join req.Directory req.Entry.Name
    Attr := fs.pkg.PbToEntryAttribute req.Entry.Attributes
    Chunks := (fs.pkg.CompactFileChunks req.Entry.Chunks).1 }

/-- The method `FilerServer.CreateEntry`: the returned error and the trace of its calls. -/
def FilerServer.CreateEntry (fs : FilerServer) (req : CreateEntryRequest) :
    Option String × List Effect :=
  let garbages := (fs.pkg.CompactFileChunks req.Entry.Chunks).2
  let entry := FilerServer.CreateEntry.entry fs req
  let err := fs.filer.CreateEntry entry
  (err, deleteAll garbages ++ [Effect.CreateEntry entry])

/-- The slice `unusedChunks` of `FilerServer.UpdateEntry`. -/
def FilerServer.UpdateEntry.unusedChunks (fs : FilerServer) (entry : Entry)
    (req : UpdateEntryRequest) : List FileChunk :=
  fs.pkg.FindUnusedFileChunks entry.Chunks req.Entry.Chunks

/-- The attribute overlay of `FilerServer.UpdateEntry` (the block guarded by
`req.Entry.Attributes != nil`), applied to the copy of the existing attributes. -/
def FilerServer.UpdateEntry.mergeAttr (attr : Attr) : Option FuseAttributes → Attr
  | none => attr
  | some attributes =>
    let attr1 : Attr :=
      if attributes.Mtime ≠ 0 then { attr with Mtime := time_Unix attributes.Mtime } else attr
    let attr2 : Attr :=
      if attributes.FileMode ≠ 0 then { attr1 with Mode := attributes.FileMode } else attr1
    { attr2 with Uid := attributes.Uid, Gid := attributes.Gid, Mime := attributes.Mime }

/-- The value `newEntry` of `FilerServer.UpdateEntry` at the `EqualEntry` test. -/
def FilerServer.UpdateEntry.newEntry (fs : FilerServer) (entry : Entry)
    (req : UpdateEntryRequest) : Entry :=
  { FullPath := fs.pkg.Join req.Directory req.Entry.Name
    Attr := FilerServer.UpdateEntry.mergeAttr entry.Attr req.Entry.Attributes
    Chunks := (fs.pkg.CompactFileChunks req.Entry.Chunks).1 }

/-- The method `FilerServer.UpdateEntry`: the returned error and the trace of its calls. -/
def FilerServer.UpdateEntry (fs : FilerServer) (req : UpdateEntryRequest) :
    Option String × List Effect :=
  let fullpath := fs.pkg.Join req.Directory req.Entry.Name
  match fs.filer.FindEntry fullpath with
  | .error err => (some ("not found " ++ fullpath ++ ": " ++ err), [Effect.FindEntry fullpath])
  | .ok entry =>
    let unusedChunks := FilerServer.UpdateEntry.unusedChunks fs entry req
    let garbages := (fs.pkg.CompactFileChunks req.Entry.Chunks).2
    let newEntry := FilerServer.UpdateEntry.newEntry fs entry req
    if fs.pkg.EqualEntry entry newEntry then
      (none, [Effect.FindEntry fullpath])
    else
      match fs.filer.UpdateEntry newEntry with
      | none =>
        (none, [Effect.FindEntry fullpath, Effect.UpdateEntry newEntry]
          ++ deleteAll unusedChunks ++ deleteAll garbages
          ++ [Effect.NotifyUpdateEvent entry newEntry true])
      | some err =>
        (some err, [Effect.FindEntry fullpath, Effect.UpdateEntry newEntry,
          Effect.NotifyUpdateEvent entry newEntry true])

/-- A metadata-store write. -/
def Effect.isWrite : Effect → Bool
  | .CreateEntry _ => true
  | .UpdateEntry _ => true
  | _ => false

/-- A chunk-deletion call. -/
def Effect.isDeletion : Effect → Bool
  | .DeleteFileByFileId _ => true
  | _ => false

/-- No chunk deletion occurs in the trace before its first metadata-store write. -/
def noDeletionBeforeWrite : List Effect → Bool
  | [] => true
  | e :: es =>
    if e.isWrite then true else if e.isDeletion then false else noDeletionBeforeWrite es

/-- The ordering of the specification for one request: no deletion precedes the write, and a
request whose write failed (`err` is an error) has no deletion at all. -/
def deletionsAfterCommit (result : Option String × List Effect) : Bool :=
  noDeletionBeforeWrite result.2 && (result.1.isNone || result.2.all (fun e => !e.isDeletion))

/-- The sparse merge of the specification for one request: each of the five attributes keeps
the existing value when the request field is zero or empty, and takes the request value
otherwise. -/
def SparseMerged (existing : Attr) (attributes : FuseAttributes) (merged : Attr) : Prop :=
  merged.Mtime = (if attributes.Mtime = 0 then existing.Mtime else time_Unix attributes.Mtime) ∧
  merged.Mode = (if attributes.FileMode = 0 then existing.Mode else attributes.FileMode) ∧
  merged.Uid = (if attributes.Uid = 0 then existing.Uid else attributes.Uid) ∧
  merged.Gid = (if attributes.Gid = 0 then existing.Gid else attributes.Gid) ∧
  merged.Mime = (if attributes.Mime = "" then existing.Mime else attributes.Mime)

instance (existing : Attr) (attributes : FuseAttributes) (merged : Attr) :
    Decidable (SparseMerged existing attributes merged) := by
  unfold SparseMerged; infer_instance

/-! ## An example implementation of the collaborators

The theorems below quantify over every `Package`; the record `examplePackage` is one
implementation, used to evaluate the code on concrete requests. -/

/-- The byte ranges `[Offset, Offset + Size)` of the two chunks intersect. -/
def FileChunk.overlaps (c d : FileChunk) : Bool :=
  decide (c.Offset < d.Offset + d.Size) && decide (d.Offset < c.Offset + c.Size)

/-- Some chunk of the list with a later recency marker overlaps the byte range of `c`. -/
def FileChunk.superseded (c : FileChunk) (chunks : List FileChunk) : Bool :=
  chunks.any (fun d => c.overlaps d && decide (c.Mtime < d.Mtime))

/-- Modelled from the spec: `filer2.CompactFileChunks` is absent from the sources; of two
chunks with overlapping byte ranges the one with the later recency marker survives and the
other is garbage, chunks that overlap no later chunk pass through, and both lists keep the
input order. -/
def specCompactFileChunks (chunks : List FileChunk) : List FileChunk × List FileChunk :=
  (chunks.filter (fun c => !c.superseded chunks), chunks.filter (fun c => c.superseded chunks))

/-- The characters after the last `/` of a path. -/
def baseName (path : List Char) : List Char :=
  (path.reverse.takeWhile (fun c => c ≠ '/')).reverse

/-- The characters before the last `/` of a path. -/
def dirName (path : List Char) : List Char :=
  ((path.reverse.dropWhile (fun c => c ≠ '/')).drop 1).reverse

/-- One implementation of `Package`: compaction as the specification describes it, unused
chunks by `minusChunks`, structural equality of entries, the concatenated `FileId`s as
fingerprint, attribute conversions field by field, and paths split at the last `/`. -/
def examplePackage : Package where
  CompactFileChunks := specCompactFileChunks
  FindUnusedFileChunks := minusChunks
  EqualEntry := fun a b => decide (a = b)
  ETag := fun chunks => String.join (chunks.map (fun c => c.FileId))
  PbToEntryAttribute := fun attributes =>
    match attributes with
    | none => ⟨time_Unix 0, 0, 0, 0, ""⟩
    | some a => ⟨time_Unix a.Mtime, a.FileMode, a.Uid, a.Gid, a.Mime⟩
  EntryAttributeToPb := fun e =>
    ⟨e.Attr.Mtime.sec, e.Attr.Mode, e.Attr.Uid, e.Attr.Gid, e.Attr.Mime⟩
  IsDirectory := fun e => decide (e.Attr.Mode / 2 ^ 31 % 2 = 1)
  Name := fun e => String.mk (baseName e.FullPath.toList)
  Join := fun dir name => dir ++ "/" ++ name
  DirAndName := fun key => (String.mk (dirName key.toList), String.mk (baseName key.toList))

/-- A filer holding the entries `store`, whose writes return `writeErr`. -/
def exampleFiler (store : List Entry) (writeErr : Option String) : Filer where
  FindEntry := fun fullpath =>
    match store.find? (fun e => decide (e.FullPath = fullpath)) with
    | some e => .ok e
    | none => .error "filer: no entry is found in filer store"
  ListDirectoryEntries := fun _ _ _ _ => .ok []
  CreateEntry := fun _ => writeErr
  UpdateEntry := fun _ => writeErr

/-- A server over `exampleFiler` and `examplePackage`. -/
def exampleServer (store : List Entry) (writeErr : Option String) : FilerServer where
  filer := exampleFiler store writeErr
  pkg := examplePackage
  DirListingLimit := 1000

/-- A chunk written after `chunkA` over the second half of its byte range. -/
def chunkE : FileChunk := ⟨"E", 5, 10, 2⟩

/-- The stored attributes `(mtime T, mode M, uid 0)` of the merge example, with T = 1700000000
and M = 0o644. -/
def attrTM : Attr := ⟨⟨1700000000, 500⟩, 420, 0, 0, ""⟩

/-- The request attributes `(mtime 0, mode 0, uid 5)` of the merge example. -/
def attrsUid5 : FuseAttributes := ⟨0, 0, 5, 0, ""⟩

/-- Stored attributes with owner 7, group 8 and a mime type. -/
def attrOwned : Attr := ⟨⟨1700000000, 0⟩, 420, 7, 8, "text/plain"⟩

/-- Request attributes that set nothing: every field zero or empty. -/
def attrsZero : FuseAttributes := ⟨0, 0, 0, 0, ""⟩

/-- The stored entry `/d/f` of the merge example, without chunks. -/
def entryTM : Entry := ⟨"/d/f", attrTM, []⟩

/-- The stored entry `/d/f` with chunks `A` and `B`. -/
def entryF : Entry := ⟨"/d/f", attrOwned, [chunkA, chunkB]⟩

/-- The update of the merge example: attributes `(mtime 0, mode 0, uid 5)` for `/d/f`. -/
def reqUid5 : UpdateEntryRequest := ⟨"/d", ⟨"f", false, [chunkA, chunkB], some attrsUid5⟩⟩

/-- An update of `/d/f` that keeps its chunks and sends all-zero attributes. -/
def reqZero : UpdateEntryRequest := ⟨"/d", ⟨"f", false, [chunkA, chunkB], some attrsZero⟩⟩

/-- An update of `/d/f` that keeps its chunks and sends no attributes. -/
def reqSame : UpdateEntryRequest := ⟨"/d", ⟨"f", false, [chunkA, chunkB], none⟩⟩

/-- An update of `/d/f` to the chunks `B` and `C`, without attributes. -/
def reqBC : UpdateEntryRequest := ⟨"/d", ⟨"f", false, [chunkB, chunkC], none⟩⟩

/-- A create request whose chunk `A` is superseded by the later chunk `E`. -/
def reqCreateAE : CreateEntryRequest := ⟨"/d", ⟨"g", false, [chunkA, chunkE], none⟩⟩

/-! ## `FilerSink.UpdateEntry` (filer_sink.go) -/

/-- The remote filer as reached through `filer_pb.SeaweedFilerClient`: the outcome of each
request. -/
structure FilerClient where
  LookupDirectoryEntry : String → String → Except String PbEntry
  UpdateEntry : String → PbEntry → Option String

/-- The receiver `fs *FilerSink`: the client of the remote filer, the package functions, and the
outcome of `fs.replicateChunks`, whose code is not part of the embedded files. -/
structure FilerSink where
  client : FilerClient
  pkg : Package
  replicateChunks : List FileChunk → Except String (List FileChunk)

/-- The calls of the sink that leave it, in the order they are made: the two requests to the
remote filer and the hand-over of a chunk list to `fs.replicateChunks`. -/
inductive SinkEffect where
  | LookupDirectoryEntry (dir name : String)
  | replicateChunks (chunks : List FileChunk)
  | UpdateEntry (dir : String) (entry : PbEntry)
deriving DecidableEq, Repr

/-- Modelled from the spec: `FilerSink.withFilerClient` is absent from the sources; connection
setup is outside the specified core, so the callback runs once with the client of the remote
filer and its result is returned. -/
def FilerSink.withFilerClient {α : Type} (fs : FilerSink) (fn : FilerClient → α) : α :=
  fn fs.client

/-- The closing block `save updated meta data` of `FilerSink.UpdateEntry`, after the calls in
`trace`. -/
def FilerSink.UpdateEntry.save (fs : FilerSink) (key dir : String) (entry : PbEntry)
    (trace : List SinkEffect) : Option String × List SinkEffect :=
  match fs.withFilerClient (fun client => client.UpdateEntry dir entry) with
  | some err =>
    (some ("update entry " ++ key ++ ": " ++ err), trace ++ [SinkEffect.UpdateEntry dir entry])
  | none => (none, trace ++ [SinkEffect.UpdateEntry dir entry])

/-- The chunk list of the remote entry after the `deleteIncludeChunks` step and the append of
the replicated chunks. -/
def FilerSink.UpdateEntry.mergedChunks
    (remoteChunks deletedChunks replicatedChunks : List FileChunk)
    (deleteIncludeChunks : Bool) : List FileChunk :=
  (if deleteIncludeChunks then minusChunks remoteChunks deletedChunks else remoteChunks)
    ++ replicatedChunks

/-- The method `FilerSink.UpdateEntry`: the returned error and the trace of its calls. -/
def FilerSink.UpdateEntry (fs : FilerSink) (key : String) (oldEntry newEntry : PbEntry)
    (deleteIncludeChunks : Bool) : Option String × List SinkEffect :=
  let dir := (fs.pkg.DirAndName key).1
  let name := (fs.pkg.DirAndName key).2
  match fs.withFilerClient (fun client => client.LookupDirectoryEntry dir name) with
  | .error err =>
    (some ("lookup when updating " ++ key ++ ": " ++ err),
      [SinkEffect.LookupDirectoryEntry dir name])
  | .ok entry =>
    if fs.pkg.ETag newEntry.Chunks = fs.pkg.ETag entry.Chunks then
      FilerSink.UpdateEntry.save fs key dir entry [SinkEffect.LookupDirectoryEntry dir name]
    else
      let deletedChunks := (compareChunks oldEntry newEntry).1
      let newChunks := (compareChunks oldEntry newEntry).2
      match fs.replicateChunks newChunks with
      | .error err =>
        (some ("replicte " ++ key ++ " chunks error: " ++ err),
          [SinkEffect.LookupDirectoryEntry dir name, SinkEffect.replicateChunks newChunks])
      | .ok replicatedChunks =>
        FilerSink.UpdateEntry.save fs key dir
          { entry with Chunks := (FilerSink.UpdateEntry.mergedChunks entry.Chunks deletedChunks
              replicatedChunks deleteIncludeChunks) }
          [SinkEffect.LookupDirectoryEntry dir name, SinkEffect.replicateChunks newChunks]

/-- The chunks handed to replication in a trace, in order. -/
def handedToReplication : List SinkEffect → List FileChunk
  | [] => []
  | SinkEffect.replicateChunks chunks :: es => chunks ++ handedToReplication es
  | _ :: es => handedToReplication es

/-- The requests sent to the remote filer after the first call of a trace. -/
def rpcsAfterLookup : List SinkEffect → List SinkEffect
  | [] => []
  | _ :: es => es.filter (fun e =>
      match e with
      | SinkEffect.replicateChunks _ => false
      | _ => true)

/-- A sink whose remote lookup answers `remote`, whose remote update answers `updateErr`, and
whose replication copies each chunk to the locator `r-` followed by its `FileId`. -/
def exampleSink (remote : Except String PbEntry) (updateErr : Option String) : FilerSink where
  client :=
    { LookupDirectoryEntry := fun _ _ => remote
      UpdateEntry := fun _ _ => updateErr }
  pkg := examplePackage
  replicateChunks := fun chunks =>
    .ok (chunks.map (fun c => { c with FileId := "r-" ++ c.FileId }))

/-- The source entry `f` before the change: chunks `A, B`. -/
def pbOld : PbEntry := ⟨"f", false, [chunkA, chunkB], none⟩

/-- The source entry `f` after the change: chunks `B, C`. -/
def pbNew : PbEntry := ⟨"f", false, [chunkB, chunkC], none⟩

/-- A remote entry `f` that lags behind: chunks `A, B, D`. -/
def pbRemote : PbEntry := ⟨"f", false, [chunkA, chunkB, chunkD], none⟩

/-- A remote entry `f` that already holds the chunks `B, C` of `pbNew`, with attributes of its
own. -/
def pbRemoteNew : PbEntry := ⟨"f", false, [chunkB, chunkC], some ⟨1700000000, 420, 7, 8, ""⟩⟩

/-- The replicated copy of chunk `C` made by `exampleSink`. -/
def chunkCr : FileChunk := ⟨"r-C", 20, 10, 1⟩

/-! ## `FilerServer.ListEntries` (filer_grpc_server.go) -/

/-- The function `strings.HasPrefix(s, p)`. -/
def strings_HasPrefix (s p : String) : Bool :=
  p.toList.isPrefixOf s.toList

/-- The comparison `a < b` of two names, character by character. -/
def nameLess (a b : String) : Bool :=
  decide (a.toList < b.toList)

/-- The row condition of the two list statements: `name >= startName` when inclusive,
`name > startName` when not. -/
def atOrAfter (pkg : Package) (startName : String) (inclusive : Bool) (row : Entry) : Bool :=
  if inclusive then !nameLess (pkg.Name row) startName else nameLess startName (pkg.Name row)

/-- Modelled from the spec: the store behind `fs.filer.ListDirectoryEntries` is absent from the
sources; `list(startName, inclusive, limit)` returns, from the rows of the directory in
ascending name order, the first `limit` rows whose name is greater than `startName` (greater or
equal when inclusive). -/
def storeList (pkg : Package) (rows : List Entry) (startName : String) (inclusive : Bool)
    (limit : Int) : List Entry :=
  (rows.filter (atOrAfter pkg startName inclusive)).take limit.toNat

/-- The response entry built from a stored entry in `FilerServer.ListEntries`. -/
def FilerServer.ListEntries.toPb (fs : FilerServer) (entry : Entry) : PbEntry :=
  { Name := fs.pkg.Name entry
    IsDirectory := fs.pkg.IsDirectory entry
    Chunks := entry.Chunks
    Attributes := some (fs.pkg.EntryAttributeToPb entry) }

/-- The body of `for _, entry := range entries` on the state
`(lastFileName, limit, resp.Entries)`. -/
def FilerServer.ListEntries.visit (fs : FilerServer) (req : ListEntriesRequest)
    (state : String × Int × List PbEntry) (entry : Entry) : String × Int × List PbEntry :=
  let lastFileName := fs.pkg.Name entry
  if req.Prefix ≠ "" ∧ strings_HasPrefix (fs.pkg.Name entry) req.Prefix = false then
    (lastFileName, state.2.1, state.2.2)
  else
    (lastFileName, state.2.1 - 1, state.2.2 ++ [FilerServer.ListEntries.toPb fs entry])

/-- The loop `for limit > 0` of `FilerServer.ListEntries`, run for at most `fuel` store pages;
`none` when the fuel runs out before the loop ends. -/
def FilerServer.ListEntries.loop (fs : FilerServer) (req : ListEntriesRequest) :
    Nat → Int → String → Bool → List PbEntry → Option (Except String (List PbEntry))
  | 0, _, _, _, _ => none
  | fuel + 1, limit, lastFileName, includeLastFile, entries =>
    if limit > 0 then
      match fs.filer.ListDirectoryEntries req.Directory lastFileName includeLastFile limit with
      | .error err => some (.error err)
      | .ok page =>
        if page.length = 0 then some (.ok entries)
        else
          let state := page.foldl (FilerServer.ListEntries.visit fs req)
            (lastFileName, limit, entries)
          FilerServer.ListEntries.loop fs req fuel state.2.1 state.1 false state.2.2
    else some (.ok entries)

/-- The method `FilerServer.ListEntries`: the entries of the response, or the error. -/
def FilerServer.ListEntries (fs : FilerServer) (fuel : Nat) (req : ListEntriesRequest) :
    Option (Except String (List PbEntry)) :=
  let limit : Int := if (req.Limit : Int) = 0 then fs.DirListingLimit else (req.Limit : Int)
  FilerServer.ListEntries.loop fs req fuel limit req.StartFromFileName req.InclusiveStartFrom []

/-- The listing that the specification asks for: of the rows at or after the start name whose
name has the prefix, the first `limit`. -/
def listingSpec (pkg : Package) (rows : List Entry) (req : ListEntriesRequest) : List Entry :=
  (rows.filter (fun row =>
    atOrAfter pkg req.StartFromFileName req.InclusiveStartFrom row
      && strings_HasPrefix (pkg.Name row) req.Prefix)).take req.Limit

/-- The name reached by the cursor after a page: the name of its last row. -/
def lastNameOf (pkg : Package) : String → List Entry → String
  | lastFileName, [] => lastFileName
  | _, entry :: entries => lastNameOf pkg (pkg.Name entry) entries

/-- A directory row with the given path and no content. -/
def rowOf (fullpath : String) : Entry := ⟨fullpath, ⟨⟨0, 0⟩, 420, 0, 0, ""⟩, []⟩

/-- The directory rows `a, img1, img2, img3, z` of the paging example. -/
def exampleRows : List Entry :=
  [rowOf "/d/a", rowOf "/d/img1", rowOf "/d/img2", rowOf "/d/img3", rowOf "/d/z"]

/-- A server whose store lists the given rows as `storeList` does. -/
def listingServer (rows : List Entry) : FilerServer where
  filer :=
    { FindEntry := fun _ => .error "filer: no entry is found in filer store"
      ListDirectoryEntries := fun _ startName inclusive limit =>
        .ok (storeList examplePackage rows startName inclusive limit)
      CreateEntry := fun _ => none
      UpdateEntry := fun _ => none }
  pkg := examplePackage
  DirListingLimit := 1000

/-- The request of the paging example: start at the empty name, inclusive, prefix `img`,
limit 2. -/
def reqImg : ListEntriesRequest := ⟨"/d", "img", "", true, 2⟩

/-- The response entry of the example row with the given name. -/
def pbRow (name : String) : PbEntry := ⟨name, false, [], some ⟨0, 420, 0, 0, ""⟩⟩

/-! ## Lemmas on `minusChunks` -/

theorem minusChunks.found_iff (a : FileChunk) (bs : List FileChunk) :
    minusChunks.found a bs = true ↔ ∃ b ∈ bs, a.FileId = b.FileId := by
  induction bs with
  | nil => simp [minusChunks.found]
  | cons b bs ih =>
    by_cases h : a.FileId = b.FileId
    · simp [minusChunks.found, h]
    · simp [minusChunks.found, h, ih]

theorem minusChunks.loop_eq (bs : List FileChunk) (as_ delta : List FileChunk) :
    minusChunks.loop bs as_ delta = delta ++ as_.filter (fun a => !minusChunks.found a bs) := by
  induction as_ generalizing delta with
  | nil => simp [minusChunks.loop]
  | cons a as_ ih =>
    by_cases h : minusChunks.found a bs = true
    · simp [minusChunks.loop, h, ih]
    · simp [minusChunks.loop, h, ih]

theorem minusChunks_eq_filter (as_ bs : List FileChunk) :
    minusChunks as_ bs = as_.filter (fun a => !minusChunks.found a bs) := by
  simp [minusChunks, minusChunks.loop_eq]

theorem mem_minusChunks (as_ bs : List FileChunk) (c : FileChunk) :
    c ∈ minusChunks as_ bs ↔ c ∈ as_ ∧ ∀ b ∈ bs, b.FileId ≠ c.FileId := by
  rw [minusChunks_eq_filter, List.mem_filter]
  constructor
  · rintro ⟨hc, hf⟩
    refine ⟨hc, fun b hb hbc => ?_⟩
    have : minusChunks.found c bs = true := (minusChunks.found_iff c bs).2 ⟨b, hb, hbc.symm⟩
    simp [this] at hf
  · rintro ⟨hc, hf⟩
    refine ⟨hc, ?_⟩
    cases hfound : minusChunks.found c bs with
    | false => rfl
    | true =>
      obtain ⟨b, hb, hbc⟩ := (minusChunks.found_iff c bs).1 hfound
      exact absurd hbc.symm (hf b hb)

theorem minusChunks_sublist (as_ bs : List FileChunk) : (minusChunks as_ bs).Sublist as_ := by
  rw [minusChunks_eq_filter]
  exact List.filter_sublist as_

/-! ## Claims on `minusChunks` -/

/-- C1: `minusChunks(a, b)` is the set difference keyed on `FileId`: a chunk occurs in the
result exactly when it occurs in `a` and no chunk of `b` carries its `FileId`; hence membership
is unchanged when `a` and `b` are reordered; and on the chunks `A, B, C, D` the two calls of the
example return `[A]` and `[D]`. -/
theorem minusChunks_set_difference :
    (∀ (a b : List FileChunk) (c : FileChunk),
        c ∈ minusChunks a b ↔ c ∈ a ∧ ∀ d ∈ b, d.FileId ≠ c.FileId) ∧
    (∀ (a a2 b b2 : List FileChunk) (c : FileChunk), a.Perm a2 → b.Perm b2 →
        (c ∈ minusChunks a b ↔ c ∈ minusChunks a2 b2)) ∧
    minusChunks [chunkA, chunkB, chunkC] [chunkB, chunkC, chunkD] = [chunkA] ∧
    minusChunks [chunkB, chunkC, chunkD] [chunkA, chunkB, chunkC] = [chunkD] := by
  refine ⟨mem_minusChunks, ?_, by decide, by decide⟩
  intro a a2 b b2 c ha hb
  rw [mem_minusChunks, mem_minusChunks, ha.mem_iff]
  constructor
  · rintro ⟨h1, h2⟩
    exact ⟨h1, fun d hd => h2 d (hb.mem_iff.2 hd)⟩
  · rintro ⟨h1, h2⟩
    exact ⟨h1, fun d hd => h2 d (hb.mem_iff.1 hd)⟩

/-- C2 (counterexample): with two chunk records of `FileId` "A" in `a` and an empty `b`,
`minusChunks` returns both records, so two elements of the result share a `FileId`. -/
theorem minusChunks_keeps_duplicates :
    minusChunks [chunkA, chunkA2] [] = [chunkA, chunkA2] ∧
    chunkA.FileId = chunkA2.FileId ∧
    ¬ DistinctFileIds (minusChunks [chunkA, chunkA2] []) := by
  decide

/-- C2 (amended): `minusChunks(a, b)` keeps, in order and with their multiplicity, the elements
of `a` whose `FileId` does not occur in `b`; it removes no repetition, and its result has
pairwise distinct `FileId`s whenever `a` has. -/
theorem minusChunks_keeps_multiplicity (a b : List FileChunk) :
    minusChunks a b = a.filter (fun c => !minusChunks.found c b) ∧
    (∀ c, (minusChunks a b).count c = if minusChunks.found c b then 0 else a.count c) ∧
    (DistinctFileIds a → DistinctFileIds (minusChunks a b)) := by
  refine ⟨minusChunks_eq_filter a b, ?_, ?_⟩
  · intro c
    rw [minusChunks_eq_filter]
    cases hfound : minusChunks.found c b with
    | false => simpa using List.count_filter (by simp [hfound])
    | true =>
      have : c ∉ a.filter (fun c => !minusChunks.found c b) := by
        simp [List.mem_filter, hfound]
      simpa using List.count_eq_zero_of_not_mem this
  · intro h
    exact List.Pairwise.sublist (minusChunks_sublist a b) h


/-! ## Lemmas on `FilerServer.UpdateEntry` -/

/-- In `FilerServer.UpdateEntry` no deletion precedes the store update, and a failed update is
followed by no deletion. -/
theorem UpdateEntry_deletionsAfterCommit (fs : FilerServer) (req : UpdateEntryRequest) :
    deletionsAfterCommit (fs.UpdateEntry req) = true := by
  cases hfind : fs.filer.FindEntry (fs.pkg.Join req.Directory req.Entry.Name) with
  | error err =>
    simp [FilerServer.UpdateEntry, hfind, deletionsAfterCommit, noDeletionBeforeWrite,
      Effect.isWrite, Effect.isDeletion]
  | ok entry =>
    by_cases heq : fs.pkg.EqualEntry entry (FilerServer.UpdateEntry.newEntry fs entry req) = true
    · simp [FilerServer.UpdateEntry, hfind, heq, deletionsAfterCommit, noDeletionBeforeWrite,
        Effect.isWrite, Effect.isDeletion]
    · cases hupd : fs.filer.UpdateEntry (FilerServer.UpdateEntry.newEntry fs entry req) with
      | none =>
        simp [FilerServer.UpdateEntry, hfind, heq, hupd, deletionsAfterCommit,
          noDeletionBeforeWrite, Effect.isWrite, Effect.isDeletion]
      | some err =>
        simp [FilerServer.UpdateEntry, hfind, heq, hupd, deletionsAfterCommit,
          noDeletionBeforeWrite, Effect.isWrite, Effect.isDeletion]

/-- The trace of `FilerServer.CreateEntry` for every server and request: the deletions of the
compaction garbage, then the store write. -/
theorem CreateEntry_trace (fs : FilerServer) (req : CreateEntryRequest) :
    (fs.CreateEntry req).2 =
      deleteAll (fs.pkg.CompactFileChunks req.Entry.Chunks).2 ++
        [Effect.CreateEntry (FilerServer.CreateEntry.entry fs req)] := rfl

/-- An entry handed to the store by `FilerServer.UpdateEntry` is the merged `newEntry`. -/
theorem UpdateEntry_written_entry (fs : FilerServer) (req : UpdateEntryRequest) (entry e : Entry)
    (hentry : fs.filer.FindEntry (fs.pkg.Join req.Directory req.Entry.Name) = .ok entry)
    (he : Effect.UpdateEntry e ∈ (fs.UpdateEntry req).2) :
    e = FilerServer.UpdateEntry.newEntry fs entry req := by
  simp only [FilerServer.UpdateEntry, hentry] at he
  by_cases heq : fs.pkg.EqualEntry entry (FilerServer.UpdateEntry.newEntry fs entry req) = true
  · simp [heq] at he
  · cases hupd : fs.filer.UpdateEntry (FilerServer.UpdateEntry.newEntry fs entry req) with
    | none => simpa [heq, hupd, deleteAll] using he
    | some err => simpa [heq, hupd] using he

/-! ## Claims on the filer server -/

/-- C3 (counterexample): an update of `/d/f` whose attributes are all zero or empty, against
stored attributes with uid 7, gid 8 and mime `text/plain`, yields uid 0, gid 0 and an empty
mime: the three stored values are not kept. -/
theorem UpdateEntry_zero_uid_overwrites :
    reqZero.Entry.Attributes = some attrsZero ∧
    (FilerServer.UpdateEntry.newEntry (exampleServer [entryF] none) entryF reqZero).Attr
      = ⟨⟨1700000000, 0⟩, 420, 0, 0, ""⟩ ∧
    entryF.Attr.Uid = 7 ∧
    ¬ SparseMerged entryF.Attr attrsZero
        (FilerServer.UpdateEntry.newEntry (exampleServer [entryF] none) entryF reqZero).Attr := by
  decide

/-- C3 (amended): when the request carries attributes, the merged mtime and mode keep the
existing value if the request field is 0 and take the request value otherwise, while the merged
uid, gid and mime are the request values in every case. -/
theorem UpdateEntry_attribute_merge (fs : FilerServer) (entry : Entry) (req : UpdateEntryRequest)
    (attributes : FuseAttributes) (h : req.Entry.Attributes = some attributes) :
    (FilerServer.UpdateEntry.newEntry fs entry req).Attr.Mtime
      = (if attributes.Mtime = 0 then entry.Attr.Mtime else time_Unix attributes.Mtime) ∧
    (FilerServer.UpdateEntry.newEntry fs entry req).Attr.Mode
      = (if attributes.FileMode = 0 then entry.Attr.Mode else attributes.FileMode) ∧
    (FilerServer.UpdateEntry.newEntry fs entry req).Attr.Uid = attributes.Uid ∧
    (FilerServer.UpdateEntry.newEntry fs entry req).Attr.Gid = attributes.Gid ∧
    (FilerServer.UpdateEntry.newEntry fs entry req).Attr.Mime = attributes.Mime := by
  unfold FilerServer.UpdateEntry.newEntry
  rw [h]
  by_cases hm : attributes.Mtime = 0 <;> by_cases hf : attributes.FileMode = 0 <;>
    simp [FilerServer.UpdateEntry.mergeAttr, hm, hf]

/-- C3 (witness): the request `(mtime 0, mode 0, uid 5)` against `(mtime T, mode M, uid 0)`
yields `(mtime T, mode M, uid 5)`. -/
theorem UpdateEntry_attribute_merge_witness :
    reqUid5.Entry.Attributes = some attrsUid5 ∧
    (FilerServer.UpdateEntry.newEntry (exampleServer [] none) entryTM reqUid5).Attr.Mtime
      = attrTM.Mtime ∧
    (FilerServer.UpdateEntry.newEntry (exampleServer [] none) entryTM reqUid5).Attr.Mode
      = attrTM.Mode ∧
    (FilerServer.UpdateEntry.newEntry (exampleServer [] none) entryTM reqUid5).Attr.Uid
      = 5 :=
  have h := UpdateEntry_attribute_merge (exampleServer [] none) entryTM reqUid5 attrsUid5 rfl
  ⟨rfl, h.1, h.2.1, h.2.2.1⟩

/-- C5 (failing input): a create request whose compaction yields the garbage chunk `A`, on a
store whose write fails. `FilerServer.CreateEntry` calls `DeleteFileByFileId` for `A` before the
store write and returns the error of the write, so a deletion precedes the write and is issued
although the write failed. -/
theorem CreateEntry_deletes_before_write :
    (exampleServer [] (some "insert failed")).CreateEntry reqCreateAE
      = (some "insert failed",
          [Effect.DeleteFileByFileId "A",
           Effect.CreateEntry ⟨"/d/g", ⟨⟨0, 0⟩, 0, 0, 0, ""⟩, [chunkE]⟩]) ∧
    deletionsAfterCommit ((exampleServer [] (some "insert failed")).CreateEntry reqCreateAE)
      = false ∧
    deletionsAfterCommit ((exampleServer [] none).CreateEntry reqCreateAE) = false := by
  decide

/-- C6: when `FindUnusedFileChunks` is the set difference by `FileId` and the survivors of
`CompactFileChunks` form a sub-list of its input, no chunk of `unusedChunks` has the `FileId` of
a chunk of the new entry, and so of any entry that `FilerServer.UpdateEntry` hands to the
store. -/
theorem UpdateEntry_unused_disjoint (fs : FilerServer) (req : UpdateEntryRequest) (entry : Entry)
    (hFind : ∀ (oldChunks newChunks : List FileChunk) (c : FileChunk),
      c ∈ fs.pkg.FindUnusedFileChunks oldChunks newChunks ↔
        c ∈ oldChunks ∧ ∀ d ∈ newChunks, d.FileId ≠ c.FileId)
    (hCompact : ∀ chunks : List FileChunk, (fs.pkg.CompactFileChunks chunks).1.Sublist chunks)
    (hentry : fs.filer.FindEntry (fs.pkg.Join req.Directory req.Entry.Name) = .ok entry) :
    (∀ u ∈ FilerServer.UpdateEntry.unusedChunks fs entry req,
      ∀ c ∈ (FilerServer.UpdateEntry.newEntry fs entry req).Chunks, u.FileId ≠ c.FileId) ∧
    (∀ e : Entry, Effect.UpdateEntry e ∈ (fs.UpdateEntry req).2 →
      ∀ u ∈ FilerServer.UpdateEntry.unusedChunks fs entry req,
        ∀ c ∈ e.Chunks, u.FileId ≠ c.FileId) := by
  have key : ∀ u ∈ FilerServer.UpdateEntry.unusedChunks fs entry req,
      ∀ c ∈ (FilerServer.UpdateEntry.newEntry fs entry req).Chunks, u.FileId ≠ c.FileId := by
    intro u hu c hc
    have hu2 := ((hFind _ _ u).1 hu).2
    have hc2 : c ∈ req.Entry.Chunks := (hCompact req.Entry.Chunks).subset hc
    exact fun huc => hu2 c hc2 huc.symm
  refine ⟨key, fun e he => ?_⟩
  rw [UpdateEntry_written_entry fs req entry e hentry he]
  exact key

/-- C6 (witness): the update of `/d/f` from chunks `A, B` to chunks `B, C`: the unused chunk
is `A`, the stored entry holds `B, C`. -/
theorem UpdateEntry_unused_disjoint_witness :
    FilerServer.UpdateEntry.unusedChunks (exampleServer [entryF] none) entryF reqBC = [chunkA] ∧
    (FilerServer.UpdateEntry.newEntry (exampleServer [entryF] none) entryF reqBC).Chunks
      = [chunkB, chunkC] ∧
    (∀ u ∈ FilerServer.UpdateEntry.unusedChunks (exampleServer [entryF] none) entryF reqBC,
      ∀ c ∈ (FilerServer.UpdateEntry.newEntry (exampleServer [entryF] none) entryF reqBC).Chunks,
        u.FileId ≠ c.FileId) :=
  ⟨by decide, by decide,
    (UpdateEntry_unused_disjoint (exampleServer [entryF] none) reqBC entryF
      (fun oldChunks newChunks c => mem_minusChunks oldChunks newChunks c)
      (fun chunks => List.filter_sublist chunks) rfl).1⟩

/-- C9: when the target exists and the merged entry is `EqualEntry` to the existing one,
`FilerServer.UpdateEntry` returns no error and its only call is the lookup: no store update, no
chunk deletion, no notification. -/
theorem UpdateEntry_equal_noop (fs : FilerServer) (req : UpdateEntryRequest) (entry : Entry)
    (hentry : fs.filer.FindEntry (fs.pkg.Join req.Directory req.Entry.Name) = .ok entry)
    (heq : fs.pkg.EqualEntry entry (FilerServer.UpdateEntry.newEntry fs entry req) = true) :
    fs.UpdateEntry req = (none, [Effect.FindEntry (fs.pkg.Join req.Directory req.Entry.Name)]) ∧
    (∀ e ∈ (fs.UpdateEntry req).2, e.isWrite = false ∧ e.isDeletion = false ∧
      ∀ oldEntry newEntry flag, e ≠ Effect.NotifyUpdateEvent oldEntry newEntry flag) := by
  have h : fs.UpdateEntry req
      = (none, [Effect.FindEntry (fs.pkg.Join req.Directory req.Entry.Name)]) := by
    simp only [FilerServer.UpdateEntry, hentry]
    simp [heq]
  rw [h]
  refine ⟨rfl, fun e he => ?_⟩
  simp at he
  subst he
  simp [Effect.isWrite, Effect.isDeletion]

/-- C9 (witness): re-sending the chunks of `/d/f` without attributes changes nothing. -/
theorem UpdateEntry_equal_noop_witness :
    (exampleServer [entryF] none).UpdateEntry reqSame = (none, [Effect.FindEntry "/d/f"]) :=
  (UpdateEntry_equal_noop (exampleServer [entryF] none) reqSame entryF rfl (by decide)).1


/-! ## Lemmas on `FilerSink.UpdateEntry` -/

theorem UpdateEntry.save_trace (fs : FilerSink) (key dir : String) (entry : PbEntry)
    (trace : List SinkEffect) :
    (FilerSink.UpdateEntry.save fs key dir entry trace).2
      = trace ++ [SinkEffect.UpdateEntry dir entry] := by
  unfold FilerSink.UpdateEntry.save
  cases fs.withFilerClient (fun client => client.UpdateEntry dir entry) <;> rfl

/-- The trace of `FilerSink.UpdateEntry` when the lookup succeeds and the fingerprints match. -/
theorem UpdateEntry_trace_match (fs : FilerSink) (key : String) (oldEntry newEntry : PbEntry)
    (deleteIncludeChunks : Bool) (entry : PbEntry)
    (hlookup : fs.client.LookupDirectoryEntry (fs.pkg.DirAndName key).1 (fs.pkg.DirAndName key).2
      = .ok entry)
    (hetag : fs.pkg.ETag newEntry.Chunks = fs.pkg.ETag entry.Chunks) :
    (fs.UpdateEntry key oldEntry newEntry deleteIncludeChunks).2 =
      [SinkEffect.LookupDirectoryEntry (fs.pkg.DirAndName key).1 (fs.pkg.DirAndName key).2,
       SinkEffect.UpdateEntry (fs.pkg.DirAndName key).1 entry] := by
  simp only [FilerSink.UpdateEntry, FilerSink.withFilerClient, hlookup]
  simp [hetag, UpdateEntry.save_trace]

/-- The chunks handed to replication by `FilerSink.UpdateEntry` when the lookup succeeds and
the fingerprints differ. -/
theorem UpdateEntry_handed_mismatch (fs : FilerSink) (key : String) (oldEntry newEntry : PbEntry)
    (deleteIncludeChunks : Bool) (entry : PbEntry)
    (hlookup : fs.client.LookupDirectoryEntry (fs.pkg.DirAndName key).1 (fs.pkg.DirAndName key).2
      = .ok entry)
    (hetag : fs.pkg.ETag newEntry.Chunks ≠ fs.pkg.ETag entry.Chunks) :
    handedToReplication (fs.UpdateEntry key oldEntry newEntry deleteIncludeChunks).2
      = minusChunks newEntry.Chunks oldEntry.Chunks := by
  simp only [FilerSink.UpdateEntry, FilerSink.withFilerClient, hlookup]
  cases hrep : fs.replicateChunks (compareChunks oldEntry newEntry).2 with
  | error err => simp [hetag, hrep, handedToReplication, compareChunks]
  | ok replicatedChunks =>
    simp [hetag, hrep, UpdateEntry.save_trace, handedToReplication, compareChunks]

/-- The chunks handed to replication by `FilerSink.UpdateEntry` on its other paths: none. -/
theorem UpdateEntry_handed_otherwise (fs : FilerSink) (key : String) (oldEntry newEntry : PbEntry)
    (deleteIncludeChunks : Bool)
    (h : ∀ entry, fs.client.LookupDirectoryEntry (fs.pkg.DirAndName key).1
        (fs.pkg.DirAndName key).2 = .ok entry →
      fs.pkg.ETag newEntry.Chunks = fs.pkg.ETag entry.Chunks) :
    handedToReplication (fs.UpdateEntry key oldEntry newEntry deleteIncludeChunks).2 = [] := by
  cases hlookup : fs.client.LookupDirectoryEntry (fs.pkg.DirAndName key).1
      (fs.pkg.DirAndName key).2 with
  | error err =>
    simp [FilerSink.UpdateEntry, FilerSink.withFilerClient, hlookup, handedToReplication]
  | ok entry =>
    rw [UpdateEntry_trace_match fs key oldEntry newEntry deleteIncludeChunks entry hlookup
      (h entry hlookup)]
    rfl

/-! ## Claims on the replication sink -/

/-- C7 (failing input): the remote entry already holds the chunks of `newEntry`, so the lookup
succeeds and the fingerprints match. No chunk is handed to replication, but after the lookup
`FilerSink.UpdateEntry` still sends an `UpdateEntry` request, carrying the remote entry exactly
as it was looked up. -/
theorem sink_UpdateEntry_match_sends_update :
    examplePackage.ETag pbNew.Chunks = examplePackage.ETag pbRemoteNew.Chunks ∧
    (exampleSink (.ok pbRemoteNew) none).UpdateEntry "/d/f" pbOld pbNew true
      = (none,
          [SinkEffect.LookupDirectoryEntry "/d" "f", SinkEffect.UpdateEntry "/d" pbRemoteNew]) ∧
    handedToReplication
        ((exampleSink (.ok pbRemoteNew) none).UpdateEntry "/d/f" pbOld pbNew true).2 = [] ∧
    rpcsAfterLookup ((exampleSink (.ok pbRemoteNew) none).UpdateEntry "/d/f" pbOld pbNew true).2
      = [SinkEffect.UpdateEntry "/d" pbRemoteNew] := by
  decide

/-- C8: the chunks that `FilerSink.UpdateEntry` hands to replication always form a sub-list of
`minusChunks(newEntry.chunks, oldEntry.chunks)`; when the remote lookup succeeds with a
fingerprint different from that of `newEntry` they are exactly that list, each element once and
in order, whatever the chunk list of the remote entry is. -/
theorem sink_UpdateEntry_replication_delta (fs : FilerSink) (key : String)
    (oldEntry newEntry : PbEntry) (deleteIncludeChunks : Bool) :
    (handedToReplication (fs.UpdateEntry key oldEntry newEntry deleteIncludeChunks).2).Sublist
      (minusChunks newEntry.Chunks oldEntry.Chunks) ∧
    (∀ entry : PbEntry,
      fs.client.LookupDirectoryEntry (fs.pkg.DirAndName key).1 (fs.pkg.DirAndName key).2
        = .ok entry →
      fs.pkg.ETag newEntry.Chunks ≠ fs.pkg.ETag entry.Chunks →
      handedToReplication (fs.UpdateEntry key oldEntry newEntry deleteIncludeChunks).2
        = minusChunks newEntry.Chunks oldEntry.Chunks) := by
  refine ⟨?_, fun entry hlookup hetag =>
    UpdateEntry_handed_mismatch fs key oldEntry newEntry deleteIncludeChunks entry hlookup hetag⟩
  by_cases h : ∀ entry, fs.client.LookupDirectoryEntry (fs.pkg.DirAndName key).1
        (fs.pkg.DirAndName key).2 = .ok entry →
      fs.pkg.ETag newEntry.Chunks = fs.pkg.ETag entry.Chunks
  · rw [UpdateEntry_handed_otherwise fs key oldEntry newEntry deleteIncludeChunks h]
    exact List.nil_sublist _
  · push_neg at h
    obtain ⟨entry, hlookup, hetag⟩ := h
    rw [UpdateEntry_handed_mismatch fs key oldEntry newEntry deleteIncludeChunks entry hlookup
      hetag]

/-- C8 (witness): the source entry went from chunks `A, B` to `B, C` and the remote holds
`A, B, D`: the only chunk handed to replication is `C`. -/
theorem sink_UpdateEntry_replication_delta_witness :
    handedToReplication ((exampleSink (.ok pbRemote) none).UpdateEntry "/d/f" pbOld pbNew true).2
      = [chunkC] :=
  (sink_UpdateEntry_replication_delta (exampleSink (.ok pbRemote) none) "/d/f" pbOld pbNew
    true).2 pbRemote rfl (by decide)

/-- C10: when the remote lookup succeeds, the fingerprints differ and the replication of the
added chunks succeeds, the sink sends one `UpdateEntry` request whose chunk list is
`minusChunks(remote.chunks, deleted)` followed by the replicated chunks if `deleteIncludeChunks`
is set, and the remote chunk list followed by the replicated chunks if not; no chunk of
`minusChunks(remote.chunks, deleted)` has a `FileId` that occurs in `deleted`. -/
theorem sink_UpdateEntry_merged_chunks (fs : FilerSink) (key : String)
    (oldEntry newEntry : PbEntry) (deleteIncludeChunks : Bool) (entry : PbEntry)
    (replicatedChunks : List FileChunk)
    (hlookup : fs.client.LookupDirectoryEntry (fs.pkg.DirAndName key).1 (fs.pkg.DirAndName key).2
      = .ok entry)
    (hetag : fs.pkg.ETag newEntry.Chunks ≠ fs.pkg.ETag entry.Chunks)
    (hrep : fs.replicateChunks (minusChunks newEntry.Chunks oldEntry.Chunks)
      = .ok replicatedChunks) :
    (fs.UpdateEntry key oldEntry newEntry deleteIncludeChunks).2 =
      [SinkEffect.LookupDirectoryEntry (fs.pkg.DirAndName key).1 (fs.pkg.DirAndName key).2,
       SinkEffect.replicateChunks (minusChunks newEntry.Chunks oldEntry.Chunks),
       SinkEffect.UpdateEntry (fs.pkg.DirAndName key).1
        { entry with Chunks :=
            ((if deleteIncludeChunks
              then minusChunks entry.Chunks (minusChunks oldEntry.Chunks newEntry.Chunks)
              else entry.Chunks) ++ replicatedChunks) }] ∧
    (∀ c ∈ minusChunks entry.Chunks (minusChunks oldEntry.Chunks newEntry.Chunks),
      ∀ d ∈ minusChunks oldEntry.Chunks newEntry.Chunks, d.FileId ≠ c.FileId) := by
  constructor
  · simp only [FilerSink.UpdateEntry, FilerSink.withFilerClient, hlookup]
    simp [hetag, compareChunks, hrep, UpdateEntry.save_trace,
      FilerSink.UpdateEntry.mergedChunks]
  · intro c hc
    exact ((mem_minusChunks _ _ c).1 hc).2

/-- C10 (witness): source `A, B` to `B, C`, remote `A, B, D`, with deletion: the request sent
holds `B, D` and the copy of `C`. -/
theorem sink_UpdateEntry_merged_chunks_witness :
    ((exampleSink (.ok pbRemote) none).UpdateEntry "/d/f" pbOld pbNew true).2 =
      [SinkEffect.LookupDirectoryEntry "/d" "f",
       SinkEffect.replicateChunks [chunkC],
       SinkEffect.UpdateEntry "/d" ⟨"f", false, [chunkB, chunkD, chunkCr], none⟩] :=
  (sink_UpdateEntry_merged_chunks (exampleSink (.ok pbRemote) none) "/d/f" pbOld pbNew true
    pbRemote [chunkCr] rfl (by decide) rfl).1


/-! ## Lemmas on `FilerServer.ListEntries` -/

theorem nameLess_iff (a b : String) : nameLess a b = true ↔ a < b := by
  simp [nameLess, String.lt_iff_toList_lt]

theorem nameLess_irrefl (a : String) : nameLess a a = false := by
  cases h : nameLess a a with
  | false => rfl
  | true => exact absurd ((nameLess_iff a a).1 h) (lt_irrefl a)

theorem nameLess_asymm {a b : String} (h : nameLess a b = true) : nameLess b a = false := by
  cases h2 : nameLess b a with
  | false => rfl
  | true => exact absurd ((nameLess_iff b a).1 h2) (lt_asymm ((nameLess_iff a b).1 h))

theorem strings_HasPrefix_empty (s : String) : strings_HasPrefix s "" = true := by
  simp [strings_HasPrefix]

/-- A row at or after the start name is followed only by such rows. -/
theorem atOrAfter_mono (pkg : Package) (startName : String) (inclusive : Bool) (r b : Entry)
    (hr : atOrAfter pkg startName inclusive r = true)
    (hrb : nameLess (pkg.Name r) (pkg.Name b) = true) :
    atOrAfter pkg startName inclusive b = true := by
  have hlt := (nameLess_iff _ _).1 hrb
  cases inclusive with
  | true =>
    simp only [atOrAfter, if_true, Bool.not_eq_true'] at hr ⊢
    cases h : nameLess (pkg.Name b) startName with
    | false => rfl
    | true =>
      have h1 := (nameLess_iff _ _).1 h
      have h2 : nameLess (pkg.Name r) startName = true :=
        (nameLess_iff _ _).2 (lt_trans hlt h1)
      rw [hr] at h2
      exact absurd h2 (by decide)
  | false =>
    simp only [atOrAfter, Bool.false_eq_true, if_false] at hr ⊢
    exact (nameLess_iff _ _).2 (lt_trans ((nameLess_iff _ _).1 hr) hlt)

/-- In rows ascending by name, the rows at or after a start name form a final segment. -/
theorem filter_atOrAfter_suffix (pkg : Package) (startName : String) (inclusive : Bool)
    (rows : List Entry)
    (hsorted : rows.Pairwise (fun a b => nameLess (pkg.Name a) (pkg.Name b) = true)) :
    ∃ pre, pre ++ rows.filter (atOrAfter pkg startName inclusive) = rows := by
  induction rows with
  | nil => exact ⟨[], rfl⟩
  | cons r rs ih =>
    rw [List.pairwise_cons] at hsorted
    obtain ⟨pre, hpre⟩ := ih hsorted.2
    by_cases hr : atOrAfter pkg startName inclusive r = true
    · refine ⟨[], ?_⟩
      rw [List.nil_append, List.filter_eq_self]
      intro b hb
      rcases List.mem_cons.1 hb with rfl | hb
      · exact hr
      · exact atOrAfter_mono pkg startName inclusive r b hr (hsorted.1 b hb)
    · refine ⟨r :: pre, ?_⟩
      rw [List.filter_cons_of_neg hr, List.cons_append, hpre]

theorem lastNameOf_append_singleton (pkg : Package) (lastFileName : String)
    (init : List Entry) (x : Entry) :
    lastNameOf pkg lastFileName (init ++ [x]) = pkg.Name x := by
  induction init generalizing lastFileName with
  | nil => rfl
  | cons e es ih => exact ih (pkg.Name e)

/-- After a non-empty page the exclusive listing from the cursor starts right behind the
page. -/
theorem filter_after_page (pkg : Package) (lastFileName : String) (pre page rest : List Entry)
    (hpage : page ≠ [])
    (hsorted : (pre ++ (page ++ rest)).Pairwise
      (fun a b => nameLess (pkg.Name a) (pkg.Name b) = true)) :
    (pre ++ (page ++ rest)).filter (atOrAfter pkg (lastNameOf pkg lastFileName page) false)
      = rest := by
  obtain ⟨init, x, rfl⟩ : ∃ init x, page = init ++ [x] :=
    ⟨page.dropLast, page.getLast hpage, (List.dropLast_append_getLast hpage).symm⟩
  rw [lastNameOf_append_singleton]
  have hsplit : pre ++ (init ++ [x] ++ rest) = (pre ++ init) ++ x :: rest := by simp
  rw [hsplit] at hsorted ⊢
  rw [List.pairwise_append] at hsorted
  obtain ⟨-, hxrest, hcross⟩ := hsorted
  rw [List.pairwise_cons] at hxrest
  have hfront : (pre ++ init).filter (atOrAfter pkg (pkg.Name x) false) = [] := by
    rw [List.filter_eq_nil_iff]
    intro a ha
    have := nameLess_asymm (hcross a ha x (List.mem_cons_self x rest))
    simp [atOrAfter, this]
  have hx : atOrAfter pkg (pkg.Name x) false x = false := by
    simp [atOrAfter, nameLess_irrefl]
  have hrest : rest.filter (atOrAfter pkg (pkg.Name x) false) = rest := by
    rw [List.filter_eq_self]
    intro b hb
    simpa [atOrAfter] using hxrest.1 b hb
  rw [List.filter_append, hfront, List.nil_append, List.filter_cons, hx, hrest]
  simp

/-- The rows of a page that `ListEntries` appends to the response. -/
theorem visit_foldl (fs : FilerServer) (req : ListEntriesRequest) (page : List Entry)
    (lastFileName : String) (limit : Int) (entries : List PbEntry) :
    page.foldl (FilerServer.ListEntries.visit fs req) (lastFileName, limit, entries) =
      (lastNameOf fs.pkg lastFileName page,
       limit - ((page.filter (fun e => strings_HasPrefix (fs.pkg.Name e) req.Prefix)).length : Int),
       entries ++ (page.filter (fun e => strings_HasPrefix (fs.pkg.Name e) req.Prefix)).map
         (FilerServer.ListEntries.toPb fs)) := by
  induction page generalizing lastFileName limit entries with
  | nil => simp [lastNameOf]
  | cons e es ih =>
    rw [List.foldl_cons]
    cases hp : strings_HasPrefix (fs.pkg.Name e) req.Prefix with
    | true =>
      have hv : FilerServer.ListEntries.visit fs req (lastFileName, limit, entries) e
          = (fs.pkg.Name e, limit - 1, entries ++ [FilerServer.ListEntries.toPb fs e]) := by
        simp [FilerServer.ListEntries.visit, hp]
      rw [hv, ih, List.filter_cons_of_pos (by simpa using hp)]
      simp only [lastNameOf, List.length_cons, List.map_cons, List.append_assoc,
        List.singleton_append, Nat.cast_add, Nat.cast_one, Prod.mk.injEq, true_and, and_true]
      omega
    | false =>
      have hne : req.Prefix ≠ "" := by
        intro h0
        rw [h0, strings_HasPrefix_empty] at hp
        exact absurd hp (by decide)
      have hv : FilerServer.ListEntries.visit fs req (lastFileName, limit, entries) e
          = (fs.pkg.Name e, limit, entries) := by
        simp [FilerServer.ListEntries.visit, hp, hne]
      rw [hv, ih, List.filter_cons_of_neg (by simp [hp])]
      simp [lastNameOf]

/-- Taking `k` of a filtered list: what the first `k` rows give, then the rest of the quota
from the rows behind them. -/
theorem take_filter_split (keep : Entry → Bool) (cs : List Entry) (k : Nat) :
    (cs.filter keep).take k =
      (cs.take k).filter keep ++
        ((cs.drop k).filter keep).take (k - ((cs.take k).filter keep).length) := by
  have hlen : ((cs.take k).filter keep).length ≤ k :=
    le_trans (List.length_filter_le _ _) (List.length_take_le _ _)
  conv_lhs => rw [← List.take_append_drop k cs, List.filter_append]
  rw [List.take_append_eq_append_take, List.take_of_length_le hlen]

/-- The loop of `ListEntries` over a store that lists `rows`, from a cursor whose remaining
rows are `cs`. -/
theorem ListEntries_loop_spec (fs : FilerServer) (req : ListEntriesRequest) (rows : List Entry)
    (hstore : ∀ startName inclusive limit,
      fs.filer.ListDirectoryEntries req.Directory startName inclusive limit
        = .ok (storeList fs.pkg rows startName inclusive limit))
    (hsorted : rows.Pairwise (fun a b => nameLess (fs.pkg.Name a) (fs.pkg.Name b) = true)) :
    ∀ (fuel k : Nat) (lastFileName : String) (includeLastFile : Bool) (entries : List PbEntry)
      (pre cs : List Entry),
      pre ++ cs = rows →
      rows.filter (atOrAfter fs.pkg lastFileName includeLastFile) = cs →
      cs.length < fuel →
      FilerServer.ListEntries.loop fs req fuel (k : Int) lastFileName includeLastFile entries =
        some (.ok (entries ++
          ((cs.filter (fun e => strings_HasPrefix (fs.pkg.Name e) req.Prefix)).take k).map
            (FilerServer.ListEntries.toPb fs))) := by
  intro fuel
  induction fuel with
  | zero => intro k l i entries pre cs _ _ h; exact absurd h (Nat.not_lt_zero _)
  | succ fuel ih =>
    intro k lastFileName includeLastFile entries pre cs hrows hfilter hfuel
    unfold FilerServer.ListEntries.loop
    by_cases hk : (k : Int) > 0
    · have hkpos : 0 < k := by omega
      rw [if_pos hk, hstore]
      have hpage : storeList fs.pkg rows lastFileName includeLastFile (k : Int) = cs.take k := by
        simp [storeList, hfilter]
      rw [hpage]
      cases cs with
      | nil => simp
      | cons c cs2 =>
        have hne : (c :: cs2).take k ≠ [] := by
          obtain ⟨j, rfl⟩ : ∃ j, k = j + 1 := ⟨k - 1, by omega⟩
          simp
        have hlen0 : ¬ ((c :: cs2).take k).length = 0 := by
          intro h0
          exact hne (List.length_eq_zero.1 h0)
        simp only [hlen0, if_false, visit_foldl]
        have hle : (((c :: cs2).take k).filter
            (fun e => strings_HasPrefix (fs.pkg.Name e) req.Prefix)).length ≤ k :=
          le_trans (List.length_filter_le _ _) (List.length_take_le _ _)
        have hcast : (k : Int) - ((((c :: cs2).take k).filter
            (fun e => strings_HasPrefix (fs.pkg.Name e) req.Prefix)).length : Int)
            = ((k - (((c :: cs2).take k).filter
              (fun e => strings_HasPrefix (fs.pkg.Name e) req.Prefix)).length : Nat) : Int) := by
          omega
        rw [hcast]
        have hrows2 : (pre ++ (c :: cs2).take k) ++ (c :: cs2).drop k = rows := by
          rw [List.append_assoc, List.take_append_drop, hrows]
        have hsorted2 : (pre ++ ((c :: cs2).take k ++ (c :: cs2).drop k)).Pairwise
            (fun a b => nameLess (fs.pkg.Name a) (fs.pkg.Name b) = true) := by
          rw [List.take_append_drop, hrows]; exact hsorted
        have hfilter2 : rows.filter
            (atOrAfter fs.pkg (lastNameOf fs.pkg lastFileName ((c :: cs2).take k)) false)
            = (c :: cs2).drop k := by
          have := filter_after_page fs.pkg lastFileName pre ((c :: cs2).take k)
            ((c :: cs2).drop k) hne hsorted2
          rwa [List.take_append_drop, hrows] at this
        have hfuel2 : ((c :: cs2).drop k).length < fuel := by
          rw [List.length_drop]
          simp only [List.length_cons] at hfuel ⊢
          omega
        rw [ih _ _ _ _ _ _ hrows2 hfilter2 hfuel2, take_filter_split _ (c :: cs2) k]
        simp
    · have hk0 : k = 0 := by omega
      subst hk0
      simp

/-! ## Claim on `FilerServer.ListEntries` -/

/-- C4: over a store that lists a finite, strictly ascending row list as `storeList` does, and
for a limit greater than 0, the paging loop of `ListEntries` ends (every fuel above the number
of rows suffices) and returns the first `limit` rows at or after the start name whose name has
the prefix; the response has at most `limit` entries, every name in it has the prefix, and its
names are strictly ascending. -/
theorem ListEntries_pagination (fs : FilerServer) (req : ListEntriesRequest) (rows : List Entry)
    (hstore : ∀ startName inclusive limit,
      fs.filer.ListDirectoryEntries req.Directory startName inclusive limit
        = .ok (storeList fs.pkg rows startName inclusive limit))
    (hsorted : rows.Pairwise (fun a b => nameLess (fs.pkg.Name a) (fs.pkg.Name b) = true))
    (hlimit : 0 < req.Limit) :
    (∀ fuel, rows.length < fuel →
      fs.ListEntries fuel req =
        some (.ok ((listingSpec fs.pkg rows req).map (FilerServer.ListEntries.toPb fs)))) ∧
    ((listingSpec fs.pkg rows req).map (FilerServer.ListEntries.toPb fs)).length ≤ req.Limit ∧
    (∀ e ∈ (listingSpec fs.pkg rows req).map (FilerServer.ListEntries.toPb fs),
      strings_HasPrefix e.Name req.Prefix = true) ∧
    ((listingSpec fs.pkg rows req).map (FilerServer.ListEntries.toPb fs)).Pairwise
      (fun a b => nameLess a.Name b.Name = true) := by
  refine ⟨?_, ?_, ?_, ?_⟩
  · intro fuel hfuel
    obtain ⟨pre, hpre⟩ := filter_atOrAfter_suffix fs.pkg req.StartFromFileName
      req.InclusiveStartFrom rows hsorted
    have hlen : (rows.filter
        (atOrAfter fs.pkg req.StartFromFileName req.InclusiveStartFrom)).length < fuel :=
      lt_of_le_of_lt (List.length_filter_le _ _) hfuel
    have hne : ¬ ((req.Limit : Int) = 0) := by omega
    unfold FilerServer.ListEntries
    simp only [hne, if_false]
    rw [ListEntries_loop_spec fs req rows hstore hsorted fuel req.Limit req.StartFromFileName
      req.InclusiveStartFrom [] pre _ hpre rfl hlen]
    simp [listingSpec, List.filter_filter, Bool.and_comm]
  · rw [List.length_map]
    exact List.length_take_le _ _
  · intro e he
    obtain ⟨row, hrow, rfl⟩ := List.mem_map.1 he
    have hmem := List.mem_of_mem_take hrow
    have := (List.mem_filter.1 hmem).2
    simp only [Bool.and_eq_true] at this
    exact this.2
  · rw [List.pairwise_map]
    exact List.Pairwise.sublist
      ((List.take_sublist _ _).trans (List.filter_sublist _)) hsorted

/-- C4 (witness): over the rows `a, img1, img2, img3, z`, the listing from the empty name,
inclusive, with prefix `img` and limit 2 returns `img1, img2`. -/
theorem ListEntries_pagination_witness :
    (listingServer exampleRows).ListEntries 6 reqImg
      = some (.ok [pbRow "img1", pbRow "img2"]) :=
  (ListEntries_pagination (listingServer exampleRows) reqImg exampleRows
    (fun _ _ _ => rfl) (by decide) (by decide)).1 6 (by decide)

end SeaweedFS
